import Mathlib

set_option maxHeartbeats 1000000

/-!
Verification of the MCTS engine in mcts.py (AlphaZero-style PUCT search).

Python floats are modelled as real numbers, the mutable tree as an
inductive tree (the parent back-reference becomes a path of child indices
from the root), and a Python exception as an Option that is none.
-/

namespace AlphaZero

/-- A search-tree node, translated from class Node in mcts.py.  Fields in
constructor order: visit count n, total action-value w, mean action-value
q, prior p, the originating action a (none for the root), the opaque game
state s, the player to move, and the ordered list of children.  The
parent pointer of the Python class is represented implicitly by the tree
shape: operations that walk upward instead take the path from the root. -/
inductive Node (σ : Type) : Type where
  | mk (n : ℕ) (w q p : ℝ) (a : Option ℕ) (s : σ) (toPlay : ℕ)
      (children : List (Node σ)) : Node σ

/-- Visit count n of a node. -/
def Node.n {σ : Type} : Node σ → ℕ
  | .mk n _ _ _ _ _ _ _ => n

/-- Total action-value w of a node. -/
def Node.w {σ : Type} : Node σ → ℝ
  | .mk _ w _ _ _ _ _ _ => w

/-- Mean action-value q of a node. -/
def Node.q {σ : Type} : Node σ → ℝ
  | .mk _ _ q _ _ _ _ _ => q

/-- Prior probability p of a node. -/
def Node.p {σ : Type} : Node σ → ℝ
  | .mk _ _ _ p _ _ _ _ => p

/-- The action that produced this node from its parent (none for the root). -/
def Node.a {σ : Type} : Node σ → Option ℕ
  | .mk _ _ _ _ a _ _ _ => a

/-- The game state held by a node. -/
def Node.s {σ : Type} : Node σ → σ
  | .mk _ _ _ _ _ s _ _ => s

/-- The player to move at a node. -/
def Node.toPlay {σ : Type} : Node σ → ℕ
  | .mk _ _ _ _ _ _ tp _ => tp

/-- The ordered list of children of a node. -/
def Node.children {σ : Type} : Node σ → List (Node σ)
  | .mk _ _ _ _ _ _ _ ch => ch

/-- Replace the children list of a node, keeping every other field. -/
def Node.setChildren {σ : Type} : Node σ → List (Node σ) → Node σ
  | .mk n w q p a s tp _, ch => .mk n w q p a s tp ch

/-- Node.is_leaf from mcts.py: a node with no children. -/
def Node.isLeaf {σ : Type} (t : Node σ) : Bool :=
  t.children.isEmpty

/-- The game-rules engine (the env argument in mcts.py).  env.transition
returns a triple in Python of which only the first component, the next
state, is consumed, so it is modelled as that state directly; turn models
the in-place s.turn() call as a state transformer. -/
structure Env (σ : Type) where
  actionSpaceSize : ℕ
  isTerminal : σ → Bool
  computeReward : σ → ℝ
  isLegal : ℕ → σ → Bool
  transition : σ → ℕ → σ
  turn : σ → σ

/-- The evaluator m from mcts.py: from the board held in a state, a vector
of per-action prior probabilities and a scalar value estimate. -/
abbrev Model (σ : Type) : Type := σ → List ℝ × ℝ

/-- Node.get_exploring_score from mcts.py:
- q + c_puct * p * sqrt_sum_n / (1 + n). -/
noncomputable def getExploringScore {σ : Type} (x : Node σ) (sqrtSumN : ℝ)
    (cPuct : ℝ) : ℝ :=
  - x.q + cPuct * x.p * sqrtSumN / (1 + (x.n : ℝ))

/-- The first maximal element of x :: xs under the key f, paired with its
index: the semantics of Python max(..., key=...), which keeps the earliest
element among those attaining the maximal key. -/
noncomputable def idxMax {α : Type} (f : α → ℝ) (x : α) (xs : List α) : ℕ × α :=
  match xs with
  | [] => (0, x)
  | y :: ys =>
    if f (idxMax f y ys).2 > f x then ((idxMax f y ys).1 + 1, (idxMax f y ys).2)
    else (0, x)

/-- Node.get_best_child_to_explore from mcts.py, additionally returning the
index of the chosen child (used below to record the selection path).
Python max raises ValueError on an empty sequence, hence the Option.  The
sibling visit sum under the square root is recomputed from the children at
every call. -/
noncomputable def bestEntryToExplore {σ : Type} (t : Node σ) (cPuct : ℝ) :
    Option (ℕ × Node σ) :=
  match t.children with
  | [] => none
  | x :: xs =>
    some (idxMax (fun c => getExploringScore c
      (Real.sqrt (((t.children.map Node.n).sum : ℕ) : ℝ)) cPuct) x xs)

/-- Node.get_best_child_to_explore from mcts.py: the child itself. -/
noncomputable def getBestChildToExplore {σ : Type} (t : Node σ) (cPuct : ℝ) :
    Option (Node σ) :=
  (bestEntryToExplore t cPuct).map Prod.snd

/-- The element picked by idxMax is one of the candidates. -/
def idxMax_mem {α : Type} (f : α → ℝ) (x : α) (xs : List α) :
    (idxMax f x xs).2 = x ∨ (idxMax f x xs).2 ∈ xs := by
  induction xs generalizing x with
  | nil => left; rfl
  | cons y ys ih =>
    simp only [idxMax]
    split
    · rcases ih y with h | h
      · right; rw [h]; exact List.mem_cons_self y ys
      · right; exact List.mem_cons_of_mem y h
    · left; rfl

/-- The element picked by idxMax is a member of the candidate list. -/
def idxMax_mem_cons {α : Type} (f : α → ℝ) (x : α) (xs : List α) :
    (idxMax f x xs).2 ∈ x :: xs := by
  rcases idxMax_mem f x xs with h | h
  · rw [h]; exact List.mem_cons_self x xs
  · exact List.mem_cons_of_mem x h

/-- A child is smaller than its parent in the auto-generated size measure. -/
def sizeOf_lt_of_mem_children {σ : Type} {c t : Node σ} (h : c ∈ t.children) :
    sizeOf c < sizeOf t := by
  cases t with
  | mk n w q p a s tp ch =>
    have h1 : sizeOf c < sizeOf ch := List.sizeOf_lt_of_mem h
    simp only [Node.mk.sizeOf_spec]
    omega

/-- The child chosen by bestEntryToExplore is one of the children. -/
def bestEntry_mem {σ : Type} {t : Node σ} {cPuct : ℝ}
    (h : (bestEntryToExplore t cPuct).isSome = true) :
    ((bestEntryToExplore t cPuct).get h).2 ∈ t.children := by
  revert h
  unfold bestEntryToExplore
  cases hch : t.children with
  | nil => intro h; simp at h
  | cons x xs =>
    intro h
    simp only [Option.get_some]
    exact idxMax_mem_cons _ x xs

/-- The select loop from mcts.py: starting from a node, repeatedly move to
the best child to explore (select calls it with the default c_puct of 1)
until a node with no children is reached. -/
noncomputable def select {σ : Type} (t : Node σ) : Node σ :=
  if h : (bestEntryToExplore t 1).isSome then
    select ((bestEntryToExplore t 1).get h).2
  else t
termination_by sizeOf t
decreasing_by exact sizeOf_lt_of_mem_children (bestEntry_mem h)

/-- The child indices visited by select: the path from the given node down
to the leaf that select returns.  This is the bookkeeping a pure rendering
of the in-place Python code needs in order to run expansion and backup on
the selected leaf inside the tree. -/
noncomputable def selectPath {σ : Type} (t : Node σ) : List ℕ :=
  if h : (bestEntryToExplore t 1).isSome then
    ((bestEntryToExplore t 1).get h).1 :: selectPath ((bestEntryToExplore t 1).get h).2
  else []
termination_by sizeOf t
decreasing_by exact sizeOf_lt_of_mem_children (bestEntry_mem h)

/-- Follow a path of child indices down from a node. -/
def leafAt {σ : Type} : Node σ → List ℕ → Option (Node σ)
  | t, [] => some t
  | t, i :: rest =>
    match t.children[i]? with
    | some c => leafAt c rest
    | none => none

/-- Apply g to the node addressed by the path, leaving every other node
unchanged (the pure counterpart of mutating the selected leaf in place). -/
def modifyAt {σ : Type} (g : Node σ → Node σ) : Node σ → List ℕ → Node σ
  | t, [] => g t
  | t, i :: rest =>
    match t.children[i]? with
    | some c => t.setChildren (t.children.set i (modifyAt g c rest))
    | none => t

/-- The leaf's own update at the start of backup in mcts.py:
n += 1 and q = w / n, with w unchanged. -/
noncomputable def updateLeaf {σ : Type} : Node σ → Node σ
  | .mk n w _ p a s tp ch => .mk (n + 1) w (w / ((n : ℝ) + 1)) p a s tp ch

/-- One ancestor update of the backup loop in mcts.py: n += 1; w gains v
when the ancestor's to_play equals the backed-up leaf's to_play and loses
v otherwise; q = w / n. -/
noncomputable def updateAncestor {σ : Type} (v : ℝ) (tp : ℕ) : Node σ → Node σ
  | .mk n w _ p a s tp' ch =>
    .mk (n + 1) (if tp' = tp then w + v else w - v)
      ((if tp' = tp then w + v else w - v) / ((n : ℝ) + 1)) p a s tp' ch

/-- The statistics updates of backup along a path: the node at the end of
the path receives the leaf update and every node strictly above it on the
path receives the ancestor update for the value v and player tp.  The
Python loop makes the same updates walking upward through parent links. -/
noncomputable def backupPath {σ : Type} (v : ℝ) (tp : ℕ) :
    Node σ → List ℕ → Node σ
  | t, [] => updateLeaf t
  | t, i :: rest =>
    match t.children[i]? with
    | some c =>
      (updateAncestor v tp t).setChildren (t.children.set i (backupPath v tp c rest))
    | none => updateAncestor v tp t

/-- backup from mcts.py, acting on the leaf addressed by the given path:
v is bound to the leaf's total w at the time of the call and tp to the
leaf's player to move. -/
noncomputable def backup {σ : Type} (t : Node σ) (path : List ℕ) : Node σ :=
  match leafAt t path with
  | some leaf => backupPath leaf.w leaf.toPlay t path
  | none => t

/-- The child-creation loop of expand_and_evaluate: for a, p in
enumerate(ps), with k the running action index, appending one fresh child
per legal action (state transitioned and turned, prior p, flipped player). -/
noncomputable def expandChildren {σ : Type} (env : Env σ) (s : σ) (toPlay : ℕ) :
    List ℝ → ℕ → List (Node σ)
  | [], _ => []
  | p :: ps, k =>
    if env.isLegal k s then
      Node.mk 0 0 0 p (some k) (env.turn (env.transition s k)) ((toPlay + 1) % 2) []
        :: expandChildren env s toPlay ps (k + 1)
    else expandChildren env s toPlay ps (k + 1)

/-- expand_and_evaluate from mcts.py.  Terminal leaf: the reward is added
to w and no children are created.  Non-terminal leaf: w is overwritten
with the evaluator's value and one child is appended for each legal action
index of the prior vector, in ascending order. -/
noncomputable def expandAndEvaluate {σ : Type} (env : Env σ) (m : Model σ) :
    Node σ → Node σ
  | .mk n w q p a s tp ch =>
    if env.isTerminal s then
      .mk n (w + env.computeReward s) q p a s tp ch
    else
      .mk n (m s).2 q p a s tp
        (ch ++ expandChildren env s tp (m s).1 0)

/-- The per-child weight n ** (1 / temperature) used by get_policy and
get_best_child_to_play. -/
noncomputable def visitWeight (temperature : ℝ) (n : ℕ) : ℝ :=
  (n : ℝ) ^ (1 / temperature)

/-- One entry of the dense policy vector: the dict comprehension of
get_policy keeps, for each action, the weight of the last child carrying
that action, and sparse_policy.get(a, 0) returns 0 for actions with no
child. -/
noncomputable def policyEntry {σ : Type} (cs : List (Node σ)) (temperature : ℝ)
    (sumN : ℝ) (aId : ℕ) : ℝ :=
  match (cs.filter fun c => c.a = some aId).getLast? with
  | some c => visitWeight temperature c.n / sumN
  | none => 0

/-- Node.get_policy from mcts.py.  A Python ZeroDivisionError is modelled
as none: with at least one child it occurs when the exponent
1 / temperature divides by zero, or when the weight sum sum_n is zero and
the dict comprehension divides by it; with no children neither division is
ever executed, because both comprehensions iterate over the empty child
list, and the result is a vector of zeros. -/
noncomputable def getPolicy {σ : Type} (t : Node σ) (temperature : ℝ)
    (actionSpace : ℕ) : Option (List ℝ) :=
  if t.children.isEmpty = false ∧ temperature = 0 then none
  else if t.children.isEmpty = false ∧ (t.children.map fun c => visitWeight temperature c.n).sum = 0 then
    none
  else
    some ((List.range actionSpace).map
      (policyEntry t.children temperature (t.children.map fun c => visitWeight temperature c.n).sum))

/-- The deterministic prefix of Node.get_best_child_to_play: the list of
normalized weights handed to random.choices.  As in getPolicy, a Python
ZeroDivisionError is modelled as none; the final stochastic draw is not
modelled. -/
noncomputable def getBestChildToPlayScores {σ : Type} (t : Node σ)
    (temperature : ℝ) : Option (List ℝ) :=
  if t.children.isEmpty = false ∧ temperature = 0 then none
  else if t.children.isEmpty = false ∧ (t.children.map fun c => visitWeight temperature c.n).sum = 0 then
    none
  else
    some (t.children.map fun c =>
      visitWeight temperature c.n / (t.children.map fun c => visitWeight temperature c.n).sum)

/-- One simulation of the search loop in mcts.py: select a leaf (recording
the path to it), expand and evaluate that leaf in place, then back the
result up along the same path. -/
noncomputable def simulate {σ : Type} (env : Env σ) (m : Model σ) (t : Node σ) :
    Node σ :=
  backup (modifyAt (expandAndEvaluate env m) t (selectPath t)) (selectPath t)

/-- The for-loop of search: run the given number of simulations in order. -/
noncomputable def searchLoop {σ : Type} (env : Env σ) (m : Model σ) :
    ℕ → Node σ → Node σ
  | 0, t => t
  | k + 1, t => searchLoop env m k (simulate env m t)

/-- The default simulation budget of search in mcts.py. -/
def defaultNumSimulations : ℕ := 800

/-- search from mcts.py: run the fixed simulation budget, then return the
root's policy over the environment's action space. -/
noncomputable def search {σ : Type} (env : Env σ) (m : Model σ) (root : Node σ)
    (numSimulations : ℕ) (temperature : ℝ) : Option (List ℝ) :=
  getPolicy (searchLoop env m numSimulations root) temperature env.actionSpaceSize

/-- One step of the select loop: move to the best child to explore,
staying put at a node with no children. -/
noncomputable def stepExplore {σ : Type} (t : Node σ) : Node σ :=
  (getBestChildToExplore t 1).getD t

/-! Concrete fixtures used by counterexamples and witnesses. -/

/-- A node with no children. -/
noncomputable def bareLeaf : Node Unit := .mk 0 0 0 0 none () 0 []

/-- A once-visited child with prior 0 and value 0. -/
noncomputable def exploreTieChildA : Node Unit := .mk 1 0 0 0 (some 0) () 1 []

/-- An unvisited child with prior 0 and value 0. -/
noncomputable def exploreTieChildB : Node Unit := .mk 0 0 0 0 (some 1) () 1 []

/-- A parent whose two children have equal prior 0 and equal q but
different visit counts. -/
noncomputable def exploreTieParent : Node Unit :=
  .mk 1 0 0 0 none () 0 [exploreTieChildA, exploreTieChildB]

/-- An unvisited child carrying action 0. -/
noncomputable def zeroVisitChild : Node Unit := .mk 0 0 0 (1 / 2) (some 0) () 1 []

/-- A parent whose only child is unvisited. -/
noncomputable def zeroVisitParent : Node Unit := .mk 0 0 0 0 none () 0 [zeroVisitChild]

/-- A visited child carrying action 0. -/
noncomputable def dupChildA : Node Unit := .mk 1 0 0 0 (some 0) () 1 []

/-- A second visited child carrying the same action 0. -/
noncomputable def dupChildB : Node Unit := .mk 1 0 0 0 (some 0) () 1 []

/-- A parent with two children that carry the same action id. -/
noncomputable def dupParent : Node Unit := .mk 2 0 0 0 none () 0 [dupChildA, dupChildB]

/-- The leaf of the three-node backup chain, with w already set to 1 by a
stub evaluation. -/
noncomputable def chainLeaf : Node Unit := .mk 0 1 0 0 (some 0) () 0 []

/-- The middle node of the three-node backup chain, to_play 1. -/
noncomputable def chainChild : Node Unit := .mk 0 0 0 0 (some 0) () 1 [chainLeaf]

/-- The root of the three-node backup chain, to_play 0. -/
noncomputable def chainRoot : Node Unit := .mk 0 0 0 0 none () 0 [chainChild]

/-- An unvisited child with positive prior. -/
noncomputable def fewerChildA : Node Unit := .mk 0 0 0 (1 / 2) (some 0) () 1 []

/-- A twice-visited child with the same positive prior. -/
noncomputable def fewerChildB : Node Unit := .mk 2 0 0 (1 / 2) (some 1) () 1 []

/-- A parent whose two children have equal positive prior and equal q but
different visit counts. -/
noncomputable def fewerParent : Node Unit :=
  .mk 2 0 0 0 none () 0 [fewerChildA, fewerChildB]

/-- A once-visited child carrying action 0. -/
noncomputable def policyChildA : Node Unit := .mk 1 0 0 (1 / 2) (some 0) () 1 []

/-- A thrice-visited child carrying action 2. -/
noncomputable def policyChildB : Node Unit := .mk 3 0 0 (1 / 2) (some 2) () 1 []

/-- A parent with distinct child actions and positive visit counts. -/
noncomputable def policyParent : Node Unit :=
  .mk 4 0 0 0 none () 0 [policyChildA, policyChildB]

/-- A rules engine over Bool states where true is terminal with reward 1. -/
noncomputable def terminalEnv : Env Bool where
  actionSpaceSize := 1
  isTerminal := fun s => s
  computeReward := fun _ => 1
  isLegal := fun _ _ => true
  transition := fun s _ => s
  turn := fun s => s

/-- A stub evaluator returning a uniform one-action prior and value 0. -/
noncomputable def terminalModel : Model Bool := fun _ => ([1], 0)

/-- A root (non-terminal state) whose only child holds the terminal state. -/
noncomputable def terminalRoot : Node Bool :=
  .mk 0 0 0 0 none false 0 [.mk 0 0 0 0 (some 0) true 1 []]

/-- A fresh non-terminal leaf over the Bool rules engine. -/
noncomputable def evalLeaf : Node Bool := .mk 0 0 0 0 none false 0 []

/-! Basic reduction lemmas for the node projections and updaters. -/

@[simp]
theorem Node.n_mk {σ : Type} (n : ℕ) (w q p : ℝ) (a : Option ℕ) (s : σ) (tp : ℕ)
    (ch : List (Node σ)) : (Node.mk n w q p a s tp ch).n = n := rfl

@[simp]
theorem Node.w_mk {σ : Type} (n : ℕ) (w q p : ℝ) (a : Option ℕ) (s : σ) (tp : ℕ)
    (ch : List (Node σ)) : (Node.mk n w q p a s tp ch).w = w := rfl

@[simp]
theorem Node.q_mk {σ : Type} (n : ℕ) (w q p : ℝ) (a : Option ℕ) (s : σ) (tp : ℕ)
    (ch : List (Node σ)) : (Node.mk n w q p a s tp ch).q = q := rfl

@[simp]
theorem Node.p_mk {σ : Type} (n : ℕ) (w q p : ℝ) (a : Option ℕ) (s : σ) (tp : ℕ)
    (ch : List (Node σ)) : (Node.mk n w q p a s tp ch).p = p := rfl

@[simp]
theorem Node.a_mk {σ : Type} (n : ℕ) (w q p : ℝ) (a : Option ℕ) (s : σ) (tp : ℕ)
    (ch : List (Node σ)) : (Node.mk n w q p a s tp ch).a = a := rfl

@[simp]
theorem Node.s_mk {σ : Type} (n : ℕ) (w q p : ℝ) (a : Option ℕ) (s : σ) (tp : ℕ)
    (ch : List (Node σ)) : (Node.mk n w q p a s tp ch).s = s := rfl

@[simp]
theorem Node.toPlay_mk {σ : Type} (n : ℕ) (w q p : ℝ) (a : Option ℕ) (s : σ) (tp : ℕ)
    (ch : List (Node σ)) : (Node.mk n w q p a s tp ch).toPlay = tp := rfl

@[simp]
theorem Node.children_mk {σ : Type} (n : ℕ) (w q p : ℝ) (a : Option ℕ) (s : σ) (tp : ℕ)
    (ch : List (Node σ)) : (Node.mk n w q p a s tp ch).children = ch := rfl

@[simp]
theorem Node.setChildren_mk {σ : Type} (n : ℕ) (w q p : ℝ) (a : Option ℕ) (s : σ)
    (tp : ℕ) (ch ch' : List (Node σ)) :
    (Node.mk n w q p a s tp ch).setChildren ch' = Node.mk n w q p a s tp ch' := rfl

@[simp]
theorem updateLeaf_mk {σ : Type} (n : ℕ) (w q p : ℝ) (a : Option ℕ) (s : σ) (tp : ℕ)
    (ch : List (Node σ)) :
    updateLeaf (Node.mk n w q p a s tp ch) =
      Node.mk (n + 1) w (w / ((n : ℝ) + 1)) p a s tp ch := rfl

@[simp]
theorem updateAncestor_mk {σ : Type} (v : ℝ) (tp : ℕ) (n : ℕ) (w q p : ℝ)
    (a : Option ℕ) (s : σ) (tp' : ℕ) (ch : List (Node σ)) :
    updateAncestor v tp (Node.mk n w q p a s tp' ch) =
      Node.mk (n + 1) (if tp' = tp then w + v else w - v)
        ((if tp' = tp then w + v else w - v) / ((n : ℝ) + 1)) p a s tp' ch := rfl

/-- With no children, get_policy never divides, whatever the temperature:
both comprehensions run over the empty list and the result is all zeros. -/
theorem getPolicy_children_nil {σ : Type} (t : Node σ) (temperature : ℝ)
    (actionSpace : ℕ) (h : t.children = []) :
    getPolicy t temperature actionSpace = some (List.replicate actionSpace 0) := by
  simp only [getPolicy, h, List.isEmpty_nil, List.map_nil, List.sum_nil]
  norm_num
  have he : policyEntry ([] : List (Node σ)) temperature 0 = fun _ => (0 : ℝ) := by
    funext aId
    simp [policyEntry]
  rw [he]
  have : ∀ (A : ℕ), (List.range A).map (fun _ => (0 : ℝ)) = List.replicate A 0 := by
    intro A
    induction A with
    | zero => rfl
    | succ k ih => rw [List.range_succ, List.map_append, List.replicate_succ', ih]; rfl
  rw [this]

/-- C10: on a node with no children, get_policy raises no error and
returns a vector of actionSpace zeros: the total visit weight over the
empty children list is zero, but no division by it is ever executed. -/
theorem getPolicy_empty_children {σ : Type} (t : Node σ) (temperature : ℝ)
    (actionSpace : ℕ) (h : t.children = []) :
    getPolicy t temperature actionSpace = some (List.replicate actionSpace 0) :=
  getPolicy_children_nil t temperature actionSpace h

/-- Witness for C10 at a concrete childless node. -/
theorem getPolicy_empty_children_witness :
    getPolicy bareLeaf 1 2 = some (List.replicate 2 0) :=
  getPolicy_empty_children bareLeaf 1 2 rfl

/-- C4 counterexample: on a node with one child, the weights of
get_best_child_to_play at temperature 0 are not computed: the exponent
1 / temperature raises a ZeroDivisionError (modelled as none), so no
argmax special case exists. -/
theorem bestChildToPlay_zero_temp_cx :
    getBestChildToPlayScores zeroVisitParent 0 = none := by
  simp [getBestChildToPlayScores, zeroVisitParent]

/-- C4 amended: calling get_best_child_to_play with temperature 0 on a
node with at least one child raises a ZeroDivisionError while computing
the exponent 1 / temperature; the degenerate temperature is not
special-cased to an argmax selection. -/
theorem bestChildToPlay_zero_temp_raises {σ : Type} (t : Node σ)
    (h : t.children ≠ []) :
    getBestChildToPlayScores t 0 = none := by
  simp [getBestChildToPlayScores, List.isEmpty_iff, h]

/-- Witness for the amended C4 at a concrete two-child node. -/
theorem bestChildToPlay_zero_temp_raises_witness :
    getBestChildToPlayScores exploreTieParent 0 = none :=
  bestChildToPlay_zero_temp_raises exploreTieParent
    (by simp [exploreTieParent])

/-- C7 counterexample: both children of exploreTieParent have prior 0 and
q 0, their visit counts differ (1 and 0), yet get_best_child_to_explore
returns the first child, which is the one with the larger visit count:
with a zero prior the exploration bonus vanishes and no preference for
fewer visits exists. -/
theorem bestChildToExplore_zero_prior_cx :
    getBestChildToExplore exploreTieParent 1 = some exploreTieChildA ∧
      exploreTieChildA.n = 1 ∧ exploreTieChildB.n = 0 := by
  refine ⟨?_, rfl, rfl⟩
  simp [getBestChildToExplore, bestEntryToExplore, exploreTieParent, idxMax,
    getExploringScore, exploreTieChildA, exploreTieChildB]

/-- idxMax picks the first element attaining the maximal key: the list
splits as l1 ++ result :: l2 with strictly smaller keys before the result
and no larger key after it, and the returned index is the position. -/
theorem idxMax_spec {α : Type} (f : α → ℝ) (x : α) (xs : List α) :
    ∃ l1 l2, x :: xs = l1 ++ (idxMax f x xs).2 :: l2 ∧
      (idxMax f x xs).1 = l1.length ∧
      (∀ y ∈ l1, f y < f (idxMax f x xs).2) ∧
      (∀ y ∈ l2, f y ≤ f (idxMax f x xs).2) := by
  induction xs generalizing x with
  | nil => exact ⟨[], [], rfl, rfl, by simp, by simp⟩
  | cons y ys ih =>
    obtain ⟨l1, l2, heq, hlen, hlt, hle⟩ := ih y
    by_cases h : f (idxMax f y ys).2 > f x
    · refine ⟨x :: l1, l2, ?_, ?_, ?_, ?_⟩
      · simp only [idxMax, if_pos h]
        rw [List.cons_append, ← heq]
      · simp only [idxMax, if_pos h, List.length_cons, hlen]
      · intro z hz
        simp only [idxMax, if_pos h]
        rcases List.mem_cons.mp hz with rfl | hz2
        · exact h
        · exact hlt z hz2
      · intro z hz
        simp only [idxMax, if_pos h]
        exact hle z hz
    · refine ⟨[], y :: ys, ?_, ?_, by simp, ?_⟩
      · simp only [idxMax, if_neg h]; rfl
      · simp only [idxMax, if_neg h]; rfl
      · intro z hz
        simp only [idxMax, if_neg h]
        push_neg at h
        have hz2 : z ∈ l1 ++ (idxMax f y ys).2 :: l2 := heq ▸ hz
        rcases List.mem_append.mp hz2 with h1 | h1
        · exact le_trans (le_of_lt (hlt z h1)) h
        · rcases List.mem_cons.mp h1 with rfl | h2
          · exact h
          · exact le_trans (hle z h2) h

/-- C1: on a node with a nonempty children list and for every c_puct,
get_best_child_to_explore returns the first child, in child order, that
attains the maximal exploring score - q + c_puct * p * sqrt(S) / (1 + n),
where S is the sum of the visit counts of all the children of the parent,
computed fresh at the call; the result is a function of the tree's
statistics, hence deterministic. -/
theorem bestChildToExplore_first_max {σ : Type} (t : Node σ) (cPuct : ℝ)
    (h : t.children ≠ []) :
    ∃ c l1 l2, getBestChildToExplore t cPuct = some c ∧
      t.children = l1 ++ c :: l2 ∧
      (∀ y ∈ l1, getExploringScore y
          (Real.sqrt (((t.children.map Node.n).sum : ℕ) : ℝ)) cPuct <
        getExploringScore c
          (Real.sqrt (((t.children.map Node.n).sum : ℕ) : ℝ)) cPuct) ∧
      (∀ y ∈ l2, getExploringScore y
          (Real.sqrt (((t.children.map Node.n).sum : ℕ) : ℝ)) cPuct ≤
        getExploringScore c
          (Real.sqrt (((t.children.map Node.n).sum : ℕ) : ℝ)) cPuct) := by
  obtain ⟨x, xs, hch⟩ := List.exists_cons_of_ne_nil h
  rw [hch]
  obtain ⟨l1, l2, heq, hlen, hlt, hle⟩ :=
    idxMax_spec (fun c => getExploringScore c
      (Real.sqrt ((((x :: xs).map Node.n).sum : ℕ) : ℝ)) cPuct) x xs
  refine ⟨_, l1, l2, ?_, heq, hlt, hle⟩
  simp only [getBestChildToExplore, bestEntryToExplore, hch, Option.map_some']

/-- Witness for C1 at a concrete two-child node. -/
theorem bestChildToExplore_first_max_witness :
    ∃ c l1 l2, getBestChildToExplore exploreTieParent 1 = some c ∧
      exploreTieParent.children = l1 ++ c :: l2 ∧
      (∀ y ∈ l1, getExploringScore y
          (Real.sqrt (((exploreTieParent.children.map Node.n).sum : ℕ) : ℝ)) 1 <
        getExploringScore c
          (Real.sqrt (((exploreTieParent.children.map Node.n).sum : ℕ) : ℝ)) 1) ∧
      (∀ y ∈ l2, getExploringScore y
          (Real.sqrt (((exploreTieParent.children.map Node.n).sum : ℕ) : ℝ)) 1 ≤
        getExploringScore c
          (Real.sqrt (((exploreTieParent.children.map Node.n).sum : ℕ) : ℝ)) 1) :=
  bestChildToExplore_first_max exploreTieParent 1 (by simp [exploreTieParent])

/-- C7 amended: on a parent with two children of equal positive prior and
equal q but different visit counts, and for positive c_puct,
get_best_child_to_explore returns the child with the smaller visit count,
because the exploration bonus c_puct * p * sqrt(S) / (1 + n) strictly
shrinks as n grows. -/
theorem bestChildToExplore_prefers_fewer_visits {σ : Type}
    (parent c1 c2 : Node σ) (cPuct : ℝ) (hch : parent.children = [c1, c2])
    (hp : c1.p = c2.p) (hppos : 0 < c1.p) (hcp : 0 < cPuct)
    (hq : c1.q = c2.q) (hne : c1.n ≠ c2.n) :
    getBestChildToExplore parent cPuct =
      some (if c1.n < c2.n then c1 else c2) := by
  have hsum : 0 < c1.n + (c2.n + 0) := by omega
  have hS : (0 : ℝ) <
      Real.sqrt (((([c1, c2].map Node.n).sum : ℕ) : ℝ)) := by
    apply Real.sqrt_pos.mpr
    simp only [List.map_cons, List.map_nil, List.sum_cons, List.sum_nil]
    exact_mod_cast hsum
  have hK : 0 < cPuct * c1.p *
      Real.sqrt (((([c1, c2].map Node.n).sum : ℕ) : ℝ)) :=
    mul_pos (mul_pos hcp hppos) hS
  simp only [getBestChildToExplore, bestEntryToExplore, hch, idxMax,
    Option.map_some']
  set S := Real.sqrt (((([c1, c2].map Node.n).sum : ℕ) : ℝ)) with hSdef
  have key : ∀ d1 d2 : Node σ, d1.p = c1.p → d2.p = c1.p → d1.q = d2.q →
      d1.n < d2.n →
      getExploringScore d2 S cPuct < getExploringScore d1 S cPuct := by
    intro d1 d2 hp1 hp2 hq12 hlt
    simp only [getExploringScore, hp1, hp2, hq12]
    apply add_lt_add_left
    apply div_lt_div_of_pos_left hK
    · positivity
    · exact_mod_cast Nat.add_lt_add_left hlt 1
  rcases lt_or_gt_of_ne hne with hlt | hgt
  · have h2 : ¬ getExploringScore c2 S cPuct > getExploringScore c1 S cPuct :=
      not_lt.mpr (le_of_lt (key c1 c2 rfl hp.symm hq hlt))
    rw [if_neg h2, if_pos hlt]
  · have h2 : getExploringScore c2 S cPuct > getExploringScore c1 S cPuct :=
      key c2 c1 hp.symm rfl hq.symm hgt
    rw [if_pos h2, if_neg (by omega)]

/-- Witness for the amended C7 at a concrete two-child node. -/
theorem bestChildToExplore_prefers_fewer_visits_witness :
    getBestChildToExplore fewerParent 1 =
      some (if fewerChildA.n < fewerChildB.n then fewerChildA else fewerChildB) :=
  bestChildToExplore_prefers_fewer_visits fewerParent fewerChildA fewerChildB 1
    rfl rfl (by norm_num [fewerChildA]) (by norm_num) rfl (by decide)

@[simp]
theorem setChildren_n {σ : Type} (t : Node σ) (ch : List (Node σ)) :
    (t.setChildren ch).n = t.n := by cases t; rfl

@[simp]
theorem setChildren_w {σ : Type} (t : Node σ) (ch : List (Node σ)) :
    (t.setChildren ch).w = t.w := by cases t; rfl

@[simp]
theorem setChildren_q {σ : Type} (t : Node σ) (ch : List (Node σ)) :
    (t.setChildren ch).q = t.q := by cases t; rfl

@[simp]
theorem setChildren_children {σ : Type} (t : Node σ) (ch : List (Node σ)) :
    (t.setChildren ch).children = ch := by cases t; rfl

@[simp]
theorem updateAncestor_n {σ : Type} (v : ℝ) (tp : ℕ) (t : Node σ) :
    (updateAncestor v tp t).n = t.n + 1 := by cases t; rfl

@[simp]
theorem updateAncestor_w {σ : Type} (v : ℝ) (tp : ℕ) (t : Node σ) :
    (updateAncestor v tp t).w = if t.toPlay = tp then t.w + v else t.w - v := by
  cases t; rfl

@[simp]
theorem updateAncestor_q {σ : Type} (v : ℝ) (tp : ℕ) (t : Node σ) :
    (updateAncestor v tp t).q =
      (if t.toPlay = tp then t.w + v else t.w - v) / ((t.n : ℝ) + 1) := by
  cases t; rfl

@[simp]
theorem updateAncestor_children {σ : Type} (v : ℝ) (tp : ℕ) (t : Node σ) :
    (updateAncestor v tp t).children = t.children := by cases t; rfl

@[simp]
theorem updateLeaf_n {σ : Type} (t : Node σ) : (updateLeaf t).n = t.n + 1 := by
  cases t; rfl

@[simp]
theorem updateLeaf_w {σ : Type} (t : Node σ) : (updateLeaf t).w = t.w := by
  cases t; rfl

@[simp]
theorem updateLeaf_q {σ : Type} (t : Node σ) :
    (updateLeaf t).q = t.w / ((t.n : ℝ) + 1) := by cases t; rfl

/-- Along the backed-up path, the node at the path's end receives the leaf
update (one more visit, w kept, q recomputed) and the node at every proper
prefix receives the ancestor update (one more visit, w shifted by v with
the sign given by the to_play comparison, q recomputed). -/
theorem backupPath_stats {σ : Type} (v : ℝ) (tp : ℕ) (path : List ℕ) :
    ∀ t : Node σ, (leafAt t path).isSome = true →
      ((∀ pre i rest, path = pre ++ i :: rest →
          (leafAt (backupPath v tp t path) pre).map (fun nd => (nd.n, nd.w, nd.q)) =
            (leafAt t pre).map (fun nd =>
              (nd.n + 1, if nd.toPlay = tp then nd.w + v else nd.w - v,
               (if nd.toPlay = tp then nd.w + v else nd.w - v) / ((nd.n : ℝ) + 1)))) ∧
        (leafAt (backupPath v tp t path) path).map (fun nd => (nd.n, nd.w, nd.q)) =
          (leafAt t path).map (fun nd => (nd.n + 1, nd.w, nd.w / ((nd.n : ℝ) + 1)))) := by
  induction path with
  | nil =>
    intro t _
    constructor
    · intro pre i rest hpre
      exact absurd hpre (by simp)
    · simp [backupPath, leafAt]
  | cons j rest' ih =>
    intro t hs
    cases hc : t.children[j]? with
    | none => rw [leafAt, hc] at hs; simp at hs
    | some c =>
      have hs' : (leafAt c rest').isSome = true := by rw [leafAt, hc] at hs; exact hs
      have hj : j < t.children.length := by
        by_contra hcon
        rw [List.getElem?_eq_none (le_of_not_lt hcon)] at hc
        exact Option.noConfusion hc
      have hb : backupPath v tp t (j :: rest') =
          (updateAncestor v tp t).setChildren
            (t.children.set j (backupPath v tp c rest')) := by
        rw [backupPath, hc]
      have hset : (t.children.set j (backupPath v tp c rest'))[j]? =
          some (backupPath v tp c rest') := List.getElem?_set_self hj
      constructor
      · intro pre i rest hpre
        cases pre with
        | nil =>
          simp only [List.nil_append, List.cons.injEq] at hpre
          simp only [hb, leafAt, Option.map_some']
          simp
        | cons j' pre' =>
          simp only [List.cons_append, List.cons.injEq] at hpre
          obtain ⟨hj', hrest'⟩ := hpre
          subst hj'
          rw [hb, leafAt, setChildren_children, hset]
          rw [leafAt, hc]
          exact (ih c hs').1 pre' i rest hrest'
      · rw [hb, leafAt, setChildren_children, hset]
        rw [leafAt, hc]
        exact (ih c hs').2

/-- backup, characterized through the statistics at every node of the
path: leaf update at the end, ancestor update with v the leaf's total w
and tp its to_play at every proper prefix. -/
theorem backup_stats {σ : Type} (t leaf : Node σ) (path : List ℕ)
    (h : leafAt t path = some leaf) :
    (∀ pre i rest, path = pre ++ i :: rest →
       (leafAt (backup t path) pre).map (fun nd => (nd.n, nd.w, nd.q)) =
         (leafAt t pre).map (fun nd =>
           (nd.n + 1,
            if nd.toPlay = leaf.toPlay then nd.w + leaf.w else nd.w - leaf.w,
            (if nd.toPlay = leaf.toPlay then nd.w + leaf.w else nd.w - leaf.w) /
              ((nd.n : ℝ) + 1)))) ∧
    (leafAt (backup t path) path).map (fun nd => (nd.n, nd.w, nd.q)) =
      (leafAt t path).map (fun nd => (nd.n + 1, nd.w, nd.w / ((nd.n : ℝ) + 1))) := by
  have hb : backup t path = backupPath leaf.w leaf.toPlay t path := by
    unfold backup; rw [h]
  rw [hb]
  exact backupPath_stats leaf.w leaf.toPlay path t (by rw [h]; rfl)

/-- C2: backup first updates the leaf itself, n += 1 and q = w / n with w
unchanged and v bound to the leaf's total w, then gives every ancestor up
to the root one more visit, adds v to its w when its to_play equals the
leaf's and subtracts v otherwise, and recomputes q = w / n; on the
root - child - leaf chain with to_play 0, 1, 0, zero statistics and leaf
w set to 1, one backup yields leaf q 1, child q - 1 and root q 1. -/
theorem backup_spec :
    (∀ (σ : Type) (t leaf : Node σ) (path : List ℕ), leafAt t path = some leaf →
       (∀ pre i rest, path = pre ++ i :: rest →
          (leafAt (backup t path) pre).map (fun nd => (nd.n, nd.w, nd.q)) =
            (leafAt t pre).map (fun nd =>
              (nd.n + 1,
               if nd.toPlay = leaf.toPlay then nd.w + leaf.w else nd.w - leaf.w,
               (if nd.toPlay = leaf.toPlay then nd.w + leaf.w else nd.w - leaf.w) /
                 ((nd.n : ℝ) + 1)))) ∧
       (leafAt (backup t path) path).map (fun nd => (nd.n, nd.w, nd.q)) =
         (leafAt t path).map (fun nd => (nd.n + 1, nd.w, nd.w / ((nd.n : ℝ) + 1)))) ∧
    ((leafAt (backup chainRoot [0, 0]) [0, 0]).map Node.q = some 1 ∧
     (leafAt (backup chainRoot [0, 0]) [0]).map Node.q = some (-1) ∧
     (leafAt (backup chainRoot [0, 0]) []).map Node.q = some 1) := by
  constructor
  · intro σ t leaf path h
    exact backup_stats t leaf path h
  · norm_num [backup, leafAt, backupPath, chainRoot, chainChild, chainLeaf]

/-- The actions of the children created by the expansion loop starting at
index k are exactly the legal action indices of range' k ps.length, in
ascending order. -/
theorem expandChildren_actions {σ : Type} (env : Env σ) (s : σ) (tp : ℕ)
    (ps : List ℝ) :
    ∀ k, (expandChildren env s tp ps k).map Node.a =
      ((List.range' k ps.length).filter fun aId => env.isLegal aId s).map some := by
  induction ps with
  | nil => intro k; simp [expandChildren]
  | cons p ps ih =>
    intro k
    rw [List.length_cons, List.range'_succ]
    by_cases h : env.isLegal k s
    · simp [expandChildren, h, ih (k + 1)]
    · simp [expandChildren, h, ih (k + 1)]

/-- Every child created by the expansion loop is fresh: zero statistics,
no children, flipped player, action some aId with prior ps.getD (aId - k)
and the transitioned, turned state. -/
theorem expandChildren_fields {σ : Type} (env : Env σ) (s : σ) (tp : ℕ)
    (ps : List ℝ) :
    ∀ k, ∀ c ∈ expandChildren env s tp ps k,
      c.n = 0 ∧ c.w = 0 ∧ c.q = 0 ∧ c.children = [] ∧ c.toPlay = (tp + 1) % 2 ∧
      ∃ aId, c.a = some aId ∧ k ≤ aId ∧ c.p = ps.getD (aId - k) 0 ∧
        c.s = env.turn (env.transition s aId) := by
  induction ps with
  | nil => intro k c hc; simp [expandChildren] at hc
  | cons p ps ih =>
    intro k c hc
    by_cases h : env.isLegal k s
    · rw [expandChildren, if_pos h] at hc
      rcases List.mem_cons.mp hc with rfl | hc2
      · exact ⟨rfl, rfl, rfl, rfl, rfl, k, rfl, le_refl k, by simp, rfl⟩
      · obtain ⟨h1, h2, h3, h4, h5, aId, ha, hk, hp2, hs2⟩ := ih (k + 1) c hc2
        refine ⟨h1, h2, h3, h4, h5, aId, ha, by omega, ?_, hs2⟩
        rw [hp2]
        have hidx : aId - k = (aId - (k + 1)) + 1 := by omega
        rw [hidx, List.getD_cons_succ]
    · rw [expandChildren, if_neg h] at hc
      obtain ⟨h1, h2, h3, h4, h5, aId, ha, hk, hp2, hs2⟩ := ih (k + 1) c hc
      refine ⟨h1, h2, h3, h4, h5, aId, ha, by omega, ?_, hs2⟩
      rw [hp2]
      have hidx : aId - k = (aId - (k + 1)) + 1 := by omega
      rw [hidx, List.getD_cons_succ]

/-- C3: expand_and_evaluate adds the terminal reward to w (not
overwriting) and creates no children when the rules engine reports the
leaf terminal; otherwise it overwrites w with the evaluator's value and
appends, for every legal action index in ascending order, exactly one
fresh child carrying the transitioned and turned state, the evaluator's
prior for that action, and the complement (to_play + 1) mod 2 of the
leaf's player. -/
theorem expandAndEvaluate_spec {σ : Type} (env : Env σ) (m : Model σ)
    (leaf : Node σ) (hleaf : leaf.children = []) :
    (env.isTerminal leaf.s = true →
       (expandAndEvaluate env m leaf).w = leaf.w + env.computeReward leaf.s ∧
       (expandAndEvaluate env m leaf).children = [] ∧
       (expandAndEvaluate env m leaf).n = leaf.n ∧
       (expandAndEvaluate env m leaf).q = leaf.q) ∧
    (env.isTerminal leaf.s = false →
       (expandAndEvaluate env m leaf).w = (m leaf.s).2 ∧
       (expandAndEvaluate env m leaf).children.map Node.a =
         (((List.range (m leaf.s).1.length).filter fun aId =>
             env.isLegal aId leaf.s).map some) ∧
       (∀ c ∈ (expandAndEvaluate env m leaf).children,
          c.n = 0 ∧ c.w = 0 ∧ c.q = 0 ∧ c.children = [] ∧
          c.toPlay = (leaf.toPlay + 1) % 2 ∧
          ∀ aId, c.a = some aId →
            c.p = (m leaf.s).1.getD aId 0 ∧
            c.s = env.turn (env.transition leaf.s aId))) := by
  cases leaf with
  | mk n w q p a s tp ch =>
    simp only [Node.children_mk] at hleaf
    subst hleaf
    constructor
    · intro ht
      simp only [Node.s_mk] at ht
      simp [expandAndEvaluate, ht]
    · intro ht
      simp only [Node.s_mk] at ht
      have hexp : expandAndEvaluate env m (Node.mk n w q p a s tp []) =
          Node.mk n (m s).2 q p a s tp (expandChildren env s tp (m s).1 0) := by
        simp [expandAndEvaluate, ht]
      rw [hexp]
      refine ⟨rfl, ?_, ?_⟩
      · simp only [Node.children_mk, Node.s_mk, List.range_eq_range']
        exact expandChildren_actions env s tp (m s).1 0
      · intro c hc
        simp only [Node.children_mk] at hc
        obtain ⟨h1, h2, h3, h4, h5, aId, ha, _, hp2, hs2⟩ :=
          expandChildren_fields env s tp (m s).1 0 c hc
        refine ⟨h1, h2, h3, h4, by simpa using h5, ?_⟩
        intro aId' ha'
        rw [ha] at ha'
        obtain rfl := Option.some.inj ha'.symm
        simp only [Node.s_mk]
        constructor
        · rw [hp2]; simp
        · exact hs2

/-- Witness for C3 over the Bool rules engine at a fresh non-terminal
leaf. -/
theorem expandAndEvaluate_spec_witness :
    (terminalEnv.isTerminal evalLeaf.s = true →
       (expandAndEvaluate terminalEnv terminalModel evalLeaf).w =
         evalLeaf.w + terminalEnv.computeReward evalLeaf.s ∧
       (expandAndEvaluate terminalEnv terminalModel evalLeaf).children = [] ∧
       (expandAndEvaluate terminalEnv terminalModel evalLeaf).n = evalLeaf.n ∧
       (expandAndEvaluate terminalEnv terminalModel evalLeaf).q = evalLeaf.q) ∧
    (terminalEnv.isTerminal evalLeaf.s = false →
       (expandAndEvaluate terminalEnv terminalModel evalLeaf).w =
         (terminalModel evalLeaf.s).2 ∧
       (expandAndEvaluate terminalEnv terminalModel evalLeaf).children.map Node.a =
         (((List.range (terminalModel evalLeaf.s).1.length).filter fun aId =>
             terminalEnv.isLegal aId evalLeaf.s).map some) ∧
       (∀ c ∈ (expandAndEvaluate terminalEnv terminalModel evalLeaf).children,
          c.n = 0 ∧ c.w = 0 ∧ c.q = 0 ∧ c.children = [] ∧
          c.toPlay = (evalLeaf.toPlay + 1) % 2 ∧
          ∀ aId, c.a = some aId →
            c.p = (terminalModel evalLeaf.s).1.getD aId 0 ∧
            c.s = terminalEnv.turn (terminalEnv.transition evalLeaf.s aId))) :=
  expandAndEvaluate_spec terminalEnv terminalModel evalLeaf rfl

/-- The list sum of f over range A equals the Finset sum over range A. -/
theorem range_map_sum (f : ℕ → ℝ) (A : ℕ) :
    ((List.range A).map f).sum = ∑ aId in Finset.range A, f aId := by
  induction A with
  | zero => simp
  | succ k ih =>
    rw [List.range_succ, List.map_append, List.sum_append, Finset.sum_range_succ,
      ih]
    simp

/-- Dividing each mapped value by a constant divides the sum. -/
theorem sum_map_div {α : Type} (l : List α) (f : α → ℝ) (d : ℝ) :
    (l.map fun x => f x / d).sum = (l.map f).sum / d := by
  induction l with
  | nil => simp
  | cons x xs ih => simp [ih, add_div]

/-- With pairwise distinct child actions, filtering the children by the
action of a member child keeps exactly that child. -/
theorem filter_action_singleton {σ : Type} :
    ∀ cs : List (Node σ), (cs.map Node.a).Nodup →
      ∀ c ∈ cs, ∀ aId, c.a = some aId →
        cs.filter (fun d => d.a = some aId) = [c] := by
  intro cs
  induction cs with
  | nil => intro _ c hc; exact absurd hc (List.not_mem_nil c)
  | cons x cs ih =>
    intro hnd c hc aId ha
    rw [List.map_cons, List.nodup_cons] at hnd
    obtain ⟨hx, hnd2⟩ := hnd
    rcases List.mem_cons.mp hc with rfl | hc2
    · rw [List.filter_cons, if_pos (by simp [ha])]
      have hrest : cs.filter (fun d => d.a = some aId) = [] := by
        rw [List.filter_eq_nil_iff]
        intro d hd hda
        apply hx
        rw [ha, ← (by simpa using hda : d.a = some aId)]
        exact List.mem_map_of_mem Node.a hd
      rw [hrest]
    · have hxa : ¬ (x.a = some aId) := by
        intro hxa
        apply hx
        rw [hxa, ← ha]
        exact List.mem_map_of_mem Node.a hc2
      rw [List.filter_cons, if_neg (by simpa using hxa)]
      exact ih hnd2 c hc2 aId ha

/-- An action carried by no child gets policy entry 0. -/
theorem policyEntry_eq_zero {σ : Type} (cs : List (Node σ)) (T sumN : ℝ)
    (aId : ℕ) (h : ∀ c ∈ cs, c.a ≠ some aId) :
    policyEntry cs T sumN aId = 0 := by
  unfold policyEntry
  have hnil : cs.filter (fun d => d.a = some aId) = [] := by
    rw [List.filter_eq_nil_iff]
    intro d hd
    simpa using h d hd
  rw [hnil]
  rfl

/-- With distinct child actions, the entry at a child's action is that
child's normalised weight. -/
theorem policyEntry_eq_weight {σ : Type} (cs : List (Node σ)) (T sumN : ℝ)
    (hnd : (cs.map Node.a).Nodup) (c : Node σ) (hc : c ∈ cs) (aId : ℕ)
    (ha : c.a = some aId) :
    policyEntry cs T sumN aId = visitWeight T c.n / sumN := by
  unfold policyEntry
  rw [filter_action_singleton cs hnd c hc aId ha]
  rfl

/-- Every policy entry is nonnegative when the weight sum is. -/
theorem policyEntry_nonneg {σ : Type} (cs : List (Node σ)) (T sumN : ℝ)
    (hs : 0 ≤ sumN) (aId : ℕ) : 0 ≤ policyEntry cs T sumN aId := by
  unfold policyEntry
  cases (cs.filter fun c => c.a = some aId).getLast? with
  | none => exact le_refl 0
  | some c =>
    exact div_nonneg (Real.rpow_nonneg (Nat.cast_nonneg c.n) _) hs

/-- Summed over the whole action range, the policy entries add up to the
children's normalised weights. -/
theorem policyEntry_sum {σ : Type} (T sumN : ℝ) (A : ℕ) :
    ∀ cs : List (Node σ), (cs.map Node.a).Nodup →
      (∀ c ∈ cs, ∃ aId, c.a = some aId ∧ aId < A) →
      ∑ aId in Finset.range A, policyEntry cs T sumN aId =
        (cs.map fun c => visitWeight T c.n / sumN).sum := by
  intro cs
  induction cs with
  | nil =>
    intro _ _
    rw [List.map_nil, List.sum_nil]
    apply Finset.sum_eq_zero
    intro aId _
    exact policyEntry_eq_zero [] T sumN aId (by intro c hc; cases hc)
  | cons c cs ih =>
    intro hnd hcov
    have hnd' := hnd
    rw [List.map_cons, List.nodup_cons] at hnd'
    obtain ⟨hx, hnd2⟩ := hnd'
    obtain ⟨aC, haC, haCA⟩ := hcov c (List.mem_cons_self c cs)
    have hzero : policyEntry cs T sumN aC = 0 := by
      apply policyEntry_eq_zero
      intro d hd hda
      apply hx
      rw [haC, ← hda]
      exact List.mem_map_of_mem Node.a hd
    have hupd : policyEntry (c :: cs) T sumN =
        Function.update (policyEntry cs T sumN) aC (visitWeight T c.n / sumN) := by
      funext aId
      by_cases h : aId = aC
      · subst h
        rw [Function.update_same]
        exact policyEntry_eq_weight (c :: cs) T sumN hnd c
          (List.mem_cons_self c cs) aId haC
      · rw [Function.update_noteq h]
        unfold policyEntry
        rw [List.filter_cons, if_neg (by simp [haC]; omega)]
    rw [hupd, Finset.sum_update_of_mem (Finset.mem_range.mpr haCA),
      ← Finset.erase_eq, Finset.sum_erase _ hzero,
      ih hnd2 (fun d hd => hcov d (List.mem_cons_of_mem c hd))]
    rw [List.map_cons, List.sum_cons]

/-- A child list containing a positively visited child has positive total
visit weight. -/
theorem sum_visitWeight_pos {σ : Type} (T : ℝ) (cs : List (Node σ))
    (c : Node σ) (hc : c ∈ cs) (hn : 0 < c.n) :
    0 < (cs.map fun d => visitWeight T d.n).sum := by
  obtain ⟨l1, l2, rfl⟩ := List.append_of_mem hc
  rw [List.map_append, List.sum_append, List.map_cons, List.sum_cons]
  have h1 : 0 ≤ (l1.map fun d => visitWeight T d.n).sum := by
    apply List.sum_nonneg
    intro x hx
    obtain ⟨d, _, rfl⟩ := List.mem_map.mp hx
    exact Real.rpow_nonneg (Nat.cast_nonneg d.n) _
  have h2 : 0 ≤ (l2.map fun d => visitWeight T d.n).sum := by
    apply List.sum_nonneg
    intro x hx
    obtain ⟨d, _, rfl⟩ := List.mem_map.mp hx
    exact Real.rpow_nonneg (Nat.cast_nonneg d.n) _
  have h3 : 0 < visitWeight T c.n :=
    Real.rpow_pos_of_pos (by exact_mod_cast hn) _
  linarith

/-- Reading an entry of a mapped range below the bound gives the function
value. -/
theorem range_map_getD (f : ℕ → ℝ) (A aId : ℕ) (h : aId < A) :
    ((List.range A).map f).getD aId 0 = f aId := by
  rw [List.getD_eq_getElem?_getD, List.getElem?_map, List.getElem?_range h]
  rfl

/-- C5 counterexample: on a node whose single child is unvisited, the
weight sum of get_policy is zero and the dict comprehension raises a
ZeroDivisionError (modelled as none) instead of returning a vector; and
on a node with two children sharing one action id, get_policy returns a
vector whose entries total 1/2, not 1, although a positively visited
child exists. -/
theorem getPolicy_cx :
    getPolicy zeroVisitParent 1 1 = none ∧
    getPolicy dupParent 1 1 = some [1 / 2] ∧ ([(1 : ℝ) / 2]).sum ≠ 1 := by
  refine ⟨?_, ?_, by norm_num⟩
  · norm_num [getPolicy, zeroVisitParent, zeroVisitChild, visitWeight]
  · norm_num [getPolicy, dupParent, dupChildA, dupChildB, visitWeight,
      policyEntry, List.range_succ]

/-- C5 amended: for positive temperature, an action space covering every
child action id, pairwise distinct child actions, and either no children
or at least one positively visited child (otherwise the weight sum is
zero and get_policy raises a ZeroDivisionError), get_policy returns a
vector of length action_space whose entry at a child's action is that
child's n ** (1/T) divided by the sum of the weights of all children,
whose other entries are 0, with every entry nonnegative and total 1
whenever a positively visited child exists. -/
theorem getPolicy_spec {σ : Type} (t : Node σ) (temperature : ℝ)
    (actionSpace : ℕ) (hT : 0 < temperature)
    (hcov : ∀ c ∈ t.children, ∃ aId, c.a = some aId ∧ aId < actionSpace)
    (hnd : (t.children.map Node.a).Nodup)
    (hpos : t.children = [] ∨ ∃ c ∈ t.children, 0 < c.n) :
    ∃ v, getPolicy t temperature actionSpace = some v ∧
      v.length = actionSpace ∧
      (∀ c ∈ t.children, ∀ aId, c.a = some aId →
        v.getD aId 0 = visitWeight temperature c.n /
          (t.children.map fun d => visitWeight temperature d.n).sum) ∧
      (∀ aId < actionSpace, (∀ c ∈ t.children, c.a ≠ some aId) →
        v.getD aId 0 = 0) ∧
      (∀ x ∈ v, 0 ≤ x) ∧
      ((∃ c ∈ t.children, 0 < c.n) → v.sum = 1) := by
  rcases hpos with hnil | ⟨c0, hc0, hn0⟩
  · refine ⟨List.replicate actionSpace 0,
      getPolicy_children_nil t temperature actionSpace hnil, by simp, ?_, ?_, ?_, ?_⟩
    · intro c hc
      rw [hnil] at hc
      exact absurd hc (List.not_mem_nil c)
    · intro aId _ _
      rw [List.getD_eq_getElem?_getD, List.getElem?_replicate]
      split
      · rfl
      · rfl
    · intro x hx
      rw [List.eq_of_mem_replicate hx]
    · rintro ⟨c, hc, _⟩
      rw [hnil] at hc
      exact absurd hc (List.not_mem_nil c)
  · have hne : ¬ t.children.isEmpty = true := by
      intro h
      rw [List.isEmpty_iff] at h
      rw [h] at hc0
      exact absurd hc0 (List.not_mem_nil c0)
    have hspos : 0 < (t.children.map fun d => visitWeight temperature d.n).sum :=
      sum_visitWeight_pos temperature t.children c0 hc0 hn0
    have hsome : getPolicy t temperature actionSpace =
        some ((List.range actionSpace).map
          (policyEntry t.children temperature
            (t.children.map fun d => visitWeight temperature d.n).sum)) := by
      unfold getPolicy
      rw [if_neg (by intro hcon; exact (ne_of_gt hT) hcon.2),
        if_neg (by intro hcon; exact (ne_of_gt hspos) hcon.2)]
    refine ⟨_, hsome, by simp, ?_, ?_, ?_, ?_⟩
    · intro c hc aId ha
      have haA : aId < actionSpace := by
        obtain ⟨aId2, ha2, hA2⟩ := hcov c hc
        rw [ha] at ha2
        obtain rfl := Option.some.inj ha2
        exact hA2
      rw [range_map_getD _ actionSpace aId haA]
      exact policyEntry_eq_weight t.children temperature _ hnd c hc aId ha
    · intro aId hA h
      rw [range_map_getD _ actionSpace aId hA]
      exact policyEntry_eq_zero t.children temperature _ aId h
    · intro x hx
      obtain ⟨aId, _, rfl⟩ := List.mem_map.mp hx
      exact policyEntry_nonneg t.children temperature _ (le_of_lt hspos) aId
    · intro _
      rw [range_map_sum, policyEntry_sum temperature _ actionSpace t.children hnd hcov,
        sum_map_div, div_self (ne_of_gt hspos)]

/-- Witness for the amended C5 at a concrete two-child node with distinct
actions and positive visits. -/
theorem getPolicy_spec_witness :
    ∃ v, getPolicy policyParent 1 3 = some v ∧
      v.length = 3 ∧
      (∀ c ∈ policyParent.children, ∀ aId, c.a = some aId →
        v.getD aId 0 = visitWeight 1 c.n /
          (policyParent.children.map fun d => visitWeight 1 d.n).sum) ∧
      (∀ aId < 3, (∀ c ∈ policyParent.children, c.a ≠ some aId) →
        v.getD aId 0 = 0) ∧
      (∀ x ∈ v, 0 ≤ x) ∧
      ((∃ c ∈ policyParent.children, 0 < c.n) → v.sum = 1) :=
  getPolicy_spec policyParent 1 3 (by norm_num)
    (by
      intro c hc
      simp only [policyParent, Node.children_mk, List.mem_cons,
        List.not_mem_nil, or_false] at hc
      rcases hc with rfl | rfl
      · exact ⟨0, rfl, by norm_num⟩
      · exact ⟨2, rfl, by norm_num⟩)
    (by simp [policyParent, policyChildA, policyChildB])
    (Or.inr ⟨policyChildA, by simp [policyParent], by norm_num [policyChildA]⟩)

/-- bestEntryToExplore returns none exactly on a node with no children
(Python max raises on an empty sequence). -/
theorem bestEntry_eq_none_iff {σ : Type} (t : Node σ) (cPuct : ℝ) :
    bestEntryToExplore t cPuct = none ↔ t.children = [] := by
  unfold bestEntryToExplore
  cases hch : t.children with
  | nil => simp
  | cons x xs => simp

/-- The index returned by bestEntryToExplore addresses the returned child
inside the children list. -/
theorem bestEntry_getElem {σ : Type} {t : Node σ} {cPuct : ℝ} {pr : ℕ × Node σ}
    (h : bestEntryToExplore t cPuct = some pr) : t.children[pr.1]? = some pr.2 := by
  have hne : t.children ≠ [] := by
    intro hnil
    rw [(bestEntry_eq_none_iff t cPuct).mpr hnil] at h
    exact Option.noConfusion h
  obtain ⟨x, xs, hch⟩ := List.exists_cons_of_ne_nil hne
  have h2 : bestEntryToExplore t cPuct =
      some (idxMax (fun c => getExploringScore c
        (Real.sqrt ((((x :: xs).map Node.n).sum : ℕ) : ℝ)) cPuct) x xs) := by
    unfold bestEntryToExplore
    rw [hch]
  have hpr : idxMax (fun c => getExploringScore c
      (Real.sqrt ((((x :: xs).map Node.n).sum : ℕ) : ℝ)) cPuct) x xs = pr :=
    Option.some.inj (h2.symm.trans h)
  obtain ⟨l1, l2, heq, hlen, _, _⟩ :=
    idxMax_spec (fun c => getExploringScore c
      (Real.sqrt ((((x :: xs).map Node.n).sum : ℕ) : ℝ)) cPuct) x xs
  rw [hpr] at heq hlen
  rw [hch, heq, hlen, List.getElem?_append_right (le_refl l1.length)]
  simp

/-- C9: from every node of the finite tree, select terminates at a node
with no children, and its result is obtained by iterating the move to the
best child to explore some number of times; as a function of the tree it
is deterministic. -/
theorem select_reaches_leaf {σ : Type} (t : Node σ) :
    (select t).children = [] ∧ ∃ k, select t = stepExplore^[k] t := by
  by_cases h : (bestEntryToExplore t 1).isSome = true
  · obtain ⟨pr, hbe⟩ := Option.isSome_iff_exists.mp h
    have hget : (bestEntryToExplore t 1).get h = pr :=
      Option.some.inj ((Option.some_get h).trans hbe)
    have hsel : select t = select pr.2 := by
      rw [select, dif_pos h, hget]
    obtain ⟨hleaf, k, hk⟩ := select_reaches_leaf pr.2
    refine ⟨by rw [hsel]; exact hleaf, k + 1, ?_⟩
    have hstep : stepExplore t = pr.2 := by
      unfold stepExplore getBestChildToExplore
      rw [hbe]
      rfl
    rw [Function.iterate_succ_apply, hstep, hsel]
    exact hk
  · have hnone : bestEntryToExplore t 1 = none := by
      rw [← Option.not_isSome_iff_eq_none]
      simpa using h
    have hsel : select t = t := by
      rw [select, dif_neg (by simpa using h)]
    refine ⟨?_, 0, hsel⟩
    rw [hsel]
    exact (bestEntry_eq_none_iff t 1).mp hnone
termination_by sizeOf t
decreasing_by exact sizeOf_lt_of_mem_children (hget ▸ bestEntry_mem h)

/-- The recorded selection path leads exactly to the leaf that select
returns. -/
theorem leafAt_selectPath {σ : Type} (t : Node σ) :
    leafAt t (selectPath t) = some (select t) := by
  by_cases h : (bestEntryToExplore t 1).isSome = true
  · obtain ⟨pr, hbe⟩ := Option.isSome_iff_exists.mp h
    have hget : (bestEntryToExplore t 1).get h = pr :=
      Option.some.inj ((Option.some_get h).trans hbe)
    have hp : selectPath t = pr.1 :: selectPath pr.2 := by
      rw [selectPath, dif_pos h, hget]
    have hsel : select t = select pr.2 := by
      rw [select, dif_pos h, hget]
    have hg : t.children[pr.1]? = some pr.2 := bestEntry_getElem hbe
    rw [hp, hsel, leafAt, hg]
    exact leafAt_selectPath pr.2
  · have hp : selectPath t = [] := by
      rw [selectPath, dif_neg (by simpa using h)]
    have hsel : select t = t := by
      rw [select, dif_neg (by simpa using h)]
    rw [hp, hsel, leafAt]
termination_by sizeOf t
decreasing_by exact sizeOf_lt_of_mem_children (hget ▸ bestEntry_mem h)

/-- The search loop is the n-fold iterate of one simulation. -/
theorem searchLoop_eq_iterate {σ : Type} (env : Env σ) (m : Model σ) :
    ∀ (k : ℕ) (t : Node σ), searchLoop env m k t = (simulate env m)^[k] t := by
  intro k
  induction k with
  | zero => intro t; rfl
  | succ j ih =>
    intro t
    rw [searchLoop, Function.iterate_succ_apply]
    exact ih (simulate env m t)

/-- C8: the search driver runs exactly numSimulations iterations, each a
select - expand_and_evaluate - backup simulation on the leaf that select
returns, with no early termination and no retries, and then returns
exactly the root's policy over the environment's action space; the
default budget is 800. -/
theorem search_driver_spec {σ : Type} (env : Env σ) (m : Model σ) :
    (∀ t : Node σ, leafAt t (selectPath t) = some (select t)) ∧
    (∀ (root : Node σ) (numSimulations : ℕ) (temperature : ℝ),
      search env m root numSimulations temperature =
        getPolicy ((simulate env m)^[numSimulations] root) temperature
          env.actionSpaceSize) ∧
    defaultNumSimulations = 800 := by
  refine ⟨fun t => leafAt_selectPath t, ?_, rfl⟩
  intro root k T
  unfold search
  rw [searchLoop_eq_iterate env m k root]

/-- One simulation on a root with a single terminal child: the path to
the child is selected, the terminal reward is added to the child's w, and
backup updates the child (leaf update) and the root (ancestor update). -/
theorem simulate_terminal_step {σ : Type} (env : Env σ) (m : Model σ)
    (s₀ s₁ : σ) (hT : env.isTerminal s₁ = true)
    (nR : ℕ) (wR qR pR : ℝ) (aR : Option ℕ) (tpR : ℕ)
    (nC : ℕ) (wC qC pC : ℝ) (aC : Option ℕ) (tpC : ℕ) :
    simulate env m
      (Node.mk nR wR qR pR aR s₀ tpR [Node.mk nC wC qC pC aC s₁ tpC []]) =
      Node.mk (nR + 1)
        (if tpR = tpC then wR + (wC + env.computeReward s₁)
         else wR - (wC + env.computeReward s₁))
        ((if tpR = tpC then wR + (wC + env.computeReward s₁)
          else wR - (wC + env.computeReward s₁)) / ((nR : ℝ) + 1)) pR aR s₀ tpR
        [Node.mk (nC + 1) (wC + env.computeReward s₁)
          ((wC + env.computeReward s₁) / ((nC : ℝ) + 1)) pC aC s₁ tpC []] := by
  have hbe : bestEntryToExplore
      (Node.mk nR wR qR pR aR s₀ tpR [Node.mk nC wC qC pC aC s₁ tpC []]) 1 =
      some (0, Node.mk nC wC qC pC aC s₁ tpC []) := rfl
  have hs : (bestEntryToExplore
      (Node.mk nR wR qR pR aR s₀ tpR [Node.mk nC wC qC pC aC s₁ tpC []]) 1).isSome
      = true := by rw [hbe]; rfl
  have hget := Option.some.inj ((Option.some_get hs).trans hbe)
  have hpc : selectPath (Node.mk nC wC qC pC aC s₁ tpC ([] : List (Node σ))) = [] := by
    rw [selectPath, dif_neg]
    rw [(bestEntry_eq_none_iff (Node.mk nC wC qC pC aC s₁ tpC []) 1).mpr rfl]
    simp
  have hpath : selectPath
      (Node.mk nR wR qR pR aR s₀ tpR [Node.mk nC wC qC pC aC s₁ tpC []]) = [0] := by
    rw [selectPath, dif_pos hs, hget]
    simp [hpc]
  have hexp : expandAndEvaluate env m (Node.mk nC wC qC pC aC s₁ tpC []) =
      Node.mk nC (wC + env.computeReward s₁) qC pC aC s₁ tpC [] := by
    simp [expandAndEvaluate, hT]
  rw [simulate, hpath]
  have hmod : modifyAt (expandAndEvaluate env m)
      (Node.mk nR wR qR pR aR s₀ tpR [Node.mk nC wC qC pC aC s₁ tpC []]) [0] =
      Node.mk nR wR qR pR aR s₀ tpR
        [Node.mk nC (wC + env.computeReward s₁) qC pC aC s₁ tpC []] := by
    simp only [modifyAt, Node.children_mk, List.getElem?_cons_zero,
      List.set_cons_zero, Node.setChildren_mk, hexp]
  rw [hmod, backup]
  simp only [leafAt, Node.children_mk, List.getElem?_cons_zero]
  simp only [backupPath, Node.children_mk, List.getElem?_cons_zero,
    List.set_cons_zero, updateLeaf_mk, updateAncestor_mk, Node.setChildren_mk,
    Node.w_mk, Node.toPlay_mk]

/-- After k simulations on a fresh terminal child below a root, the child
holds k visits, total value k * r, and mean value r once k is at least
one; the root keeps its identity fields. -/
theorem terminal_leaf_revisit_aux {σ : Type} (env : Env σ) (m : Model σ)
    (s₀ s₁ : σ) (r : ℝ) (hT : env.isTerminal s₁ = true)
    (hR : env.computeReward s₁ = r) (q₀ p₀ : ℝ) (a₀ : Option ℕ) (tp₀ : ℕ)
    (nR : ℕ) (wR qR pR : ℝ) (aR : Option ℕ) (tpR : ℕ) :
    ∀ k : ℕ, ∃ (nR' : ℕ) (wR' qR' qC : ℝ),
      (simulate env m)^[k]
        (Node.mk nR wR qR pR aR s₀ tpR [Node.mk 0 0 q₀ p₀ a₀ s₁ tp₀ []]) =
        Node.mk nR' wR' qR' pR aR s₀ tpR
          [Node.mk k ((k : ℝ) * r) qC p₀ a₀ s₁ tp₀ []] ∧
      (1 ≤ k → qC = r) := by
  intro k
  induction k with
  | zero =>
    refine ⟨nR, wR, qR, q₀, by norm_num, ?_⟩
    intro h
    exact absurd h (by omega)
  | succ j ih =>
    obtain ⟨nR', wR', qR', qC, hiter, _⟩ := ih
    rw [Function.iterate_succ_apply', hiter,
      simulate_terminal_step env m s₀ s₁ hT, hR]
    have hw : (j : ℝ) * r + r = (((j + 1 : ℕ)) : ℝ) * r := by push_cast; ring
    rw [hw]
    refine ⟨_, _, _, _, rfl, fun _ => ?_⟩
    rw [(by push_cast; ring : (((j + 1 : ℕ)) : ℝ) = (j : ℝ) + 1)]
    exact mul_div_cancel_left₀ r (by positivity)

/-- C6: a terminal leaf starting with zero statistics that is the
selected simulation leaf N times, each visit adding the same reward r via
expand_and_evaluate followed by backup, ends with visit count N and mean
value q = r. -/
theorem terminal_leaf_revisit {σ : Type} (env : Env σ) (m : Model σ)
    (s₀ s₁ : σ) (r : ℝ) (hT : env.isTerminal s₁ = true)
    (hR : env.computeReward s₁ = r) (q₀ p₀ : ℝ) (a₀ : Option ℕ) (tp₀ : ℕ)
    (nR : ℕ) (wR qR pR : ℝ) (aR : Option ℕ) (tpR : ℕ)
    (N : ℕ) (hN : 1 ≤ N) :
    ∃ (c : Node σ) (nR' : ℕ) (wR' qR' : ℝ),
      (simulate env m)^[N]
        (Node.mk nR wR qR pR aR s₀ tpR [Node.mk 0 0 q₀ p₀ a₀ s₁ tp₀ []]) =
        Node.mk nR' wR' qR' pR aR s₀ tpR [c] ∧
      c.n = N ∧ c.q = r ∧ c.w = (N : ℝ) * r ∧ c.s = s₁ ∧ c.children = [] := by
  obtain ⟨nR', wR', qR', qC, hiter, hq⟩ :=
    terminal_leaf_revisit_aux env m s₀ s₁ r hT hR q₀ p₀ a₀ tp₀ nR wR qR pR aR tpR N
  exact ⟨_, nR', wR', qR', hiter, by simp, by simp [hq hN], by simp, rfl, rfl⟩

/-- Witness for C6: two simulations over the Bool rules engine on a fresh
terminal child with reward 1. -/
theorem terminal_leaf_revisit_witness :
    ∃ (c : Node Bool) (nR' : ℕ) (wR' qR' : ℝ),
      (simulate terminalEnv terminalModel)^[2]
        (Node.mk 0 0 0 0 none false 0 [Node.mk 0 0 0 0 (some 0) true 1 []]) =
        Node.mk nR' wR' qR' 0 none false 0 [c] ∧
      c.n = 2 ∧ c.q = 1 ∧ c.w = ((2 : ℕ) : ℝ) * 1 ∧ c.s = true ∧
      c.children = [] :=
  terminal_leaf_revisit terminalEnv terminalModel false true 1 rfl rfl
    0 0 (some 0) 1 0 0 0 0 none 0 2 (by norm_num)

end AlphaZero
